import Mathlib

/-!
Shallow embedding of `bloom_filter.py`: a `BitArray` bit-vector primitive and a
Bloom-filter engine parameterized by a hash-function strategy, together with
proofs about the embedded operations.

Conventions of the embedding:
* Python integers are `Int` (indices, sizes, hash values); the bit store
  `_bits` is always a non-negative integer, so it is a `Nat`.
* A Python method that can raise becomes a function into `Except String _`;
  mutation of `self` becomes returning the updated structure.
* Cryptographic digests (`hashlib.sha256` / `hashlib.sha224`) live outside the
  repository; the strategy constructors take the integer-valued digest
  functions as explicit parameters `(String → Int)` and the inputs are taken
  in their Python string form (the code applies `str` to the item before
  hashing).
-/

/-- Embeds the state of Python class `BitArray`: `_bits` is the backing
integer (`1 << size` at construction), `size` the bit count. -/
structure BitArray where
  bits : Nat
  size : Int
  deriving Repr, DecidableEq

/-- Embeds `BitArray.__init__`: `self._bits = 1 << size; self.size = size`.
There is no validation of `size`; Python's `1 << size` itself raises
`ValueError: negative shift count` when `size < 0`, and succeeds for every
`size >= 0` (including `0`, where `_bits = 1`). -/
def BitArray.init (size : Int) : Except String BitArray :=
  if size < 0 then .error "negative shift count"
  else .ok { bits := 1 <<< size.toNat, size := size }

/-- Embeds `BitArray._val`: raises `ValueError` with a message naming the
index and the size unless `0 <= i < self.size`. -/
def BitArray.val (b : BitArray) (i : Int) : Except String Unit :=
  if 0 ≤ i ∧ i < b.size then .ok ()
  else .error ("Index " ++ toString i ++
    " must be between 0 and bit array size " ++ toString b.size)

/-- Embeds `BitArray.get`: `self._val(i); return self._bits & 1 << i > 0`. -/
def BitArray.get (b : BitArray) (i : Int) : Except String Bool := do
  b.val i
  pure (decide (0 < b.bits &&& (1 <<< i.toNat)))

/-- Embeds `BitArray.set`: `self._val(i); self._bits = self._bits | 1 << i`. -/
def BitArray.set (b : BitArray) (i : Int) : Except String BitArray := do
  b.val i
  pure { b with bits := b.bits ||| (1 <<< i.toNat) }

/-- Embeds `BitArray.unset`: `self._val(i); self._bits = self._bits ^ 1 << i`.
Note the source uses XOR (`^`), which toggles the addressed bit. -/
def BitArray.unset (b : BitArray) (i : Int) : Except String BitArray := do
  b.val i
  pure { b with bits := b.bits ^^^ (1 <<< i.toNat) }

variable {α : Type}

/-- Embeds the state of `BloomFilterBase`: the owned `_bit_array`, the list
`_hash_funcs` (each Python hash function maps an item to an integer), and the
`_num_added` counter. -/
structure BloomFilter (α : Type) where
  bit_array : BitArray
  hash_funcs : List (α → Int)
  num_added : Nat

/-- Embeds `BloomFilterBase.m`: size of the bit array. -/
def BloomFilter.m (f : BloomFilter α) : Int :=
  f.bit_array.size

/-- Embeds `BloomFilterBase.k`: number of hash functions. -/
def BloomFilter.k (f : BloomFilter α) : Nat :=
  f.hash_funcs.length

/-- Embeds `BloomFilterBase.n`: number of items added. -/
def BloomFilter.n (f : BloomFilter α) : Nat :=
  f.num_added

/-- Embeds `BloomFilterBase.__init__` for a strategy whose
`_get_hash_funcs(k)` is `getHashFuncs k`: build the `BitArray` of size `m`,
obtain the hash functions, `assert len(self._hash_funcs) == k`, and start the
counter at `0`. -/
def BloomFilter.init (getHashFuncs : Nat → List (α → Int)) (m : Int)
    (k : Nat) : Except String (BloomFilter α) := do
  let ba ← BitArray.init m
  let hfs := getHashFuncs k
  if hfs.length = k then
    pure { bit_array := ba, hash_funcs := hfs, num_added := 0 }
  else
    .error "AssertionError"

/-- Embeds `BloomFilterBase.add`: for every hash function, set bit
`hash_func(item) % self.m()` (reading the current bit array's size, which
`set` never changes), then increment `_num_added` by one. Python's `%` on a
positive modulus is Euclidean remainder, i.e. `Int`'s `%`. -/
def BloomFilter.add (f : BloomFilter α) (item : α) :
    Except String (BloomFilter α) := do
  let ba ← f.hash_funcs.foldlM (fun ba hf => ba.set (hf item % ba.size))
    f.bit_array
  pure { f with bit_array := ba, num_added := f.num_added + 1 }

/-- Embeds `BloomFilterBase.add_all`: `add` each item in order. -/
def BloomFilter.addAll (f : BloomFilter α) (items : List α) :
    Except String (BloomFilter α) :=
  items.foldlM (fun f item => f.add item) f

/-- Loop body of `BloomFilterBase.__contains__`: walk the hash functions,
returning `False` as soon as one addressed bit is clear. -/
def BloomFilter.containsAux (ba : BitArray) (item : α) :
    List (α → Int) → Except String Bool
  | [] => pure true
  | hf :: rest => do
    let bit ← ba.get (hf item % ba.size)
    if bit then BloomFilter.containsAux ba item rest else pure false

/-- Embeds `BloomFilterBase.__contains__`. -/
def BloomFilter.contains (f : BloomFilter α) (item : α) :
    Except String Bool :=
  BloomFilter.containsAux f.bit_array item f.hash_funcs

/-- Embeds `ModuloBloomFilter._get_hash_funcs` (the test-only strategy):
`[lambda x: x % self._bit_array.size for _ in range(k)]`, where the bit
array's size never changes after construction, so each function is
`x % m`. -/
def modulo_get_hash_funcs (m : Int) (k : Nat) : List (Int → Int) :=
  (List.range k).map (fun _ => fun x => x % m)

/-- Embeds `SaltedSHA256BloomFilter._get_hash_funcs`:
`[lambda x: self._sha256(f'{str(x)}-{i}') for i in range(k)]`.
Python list-comprehension lambdas close over the comprehension variable `i`
itself, not its value at creation time; when any of the returned functions is
later called, `i` holds the final value `k - 1` of the iteration, so every
one of the `k` closures computes the digest salted with `k - 1`. The
embedding makes this captured final value explicit. `sha256` is the integer
digest `int(hashlib.sha256(str(·).encode()).hexdigest(), 16)`, passed in as
a parameter; items are taken in string form. -/
def salted_sha256_get_hash_funcs (sha256 : String → Int) (k : Nat) :
    List (String → Int) :=
  (List.range k).map (fun _ => fun x => sha256 (x ++ "-" ++ toString (k - 1)))

/-- Embeds `ComposedSHABloomFilter._get_hash_funcs`:
`[lambda x: self._sha224(x) + i * self._sha256(x) for i in range(k)]`.
As in `salted_sha256_get_hash_funcs`, the lambdas close over the
comprehension variable `i`, which holds `k - 1` by the time any of them is
called, so every one of the `k` closures computes
`sha224(x) + (k - 1) * sha256(x)`. The two integer digests are passed in as
parameters; items are taken in string form. -/
def composed_sha_get_hash_funcs (sha224 sha256 : String → Int) (k : Nat) :
    List (String → Int) :=
  (List.range k).map (fun _ =>
    fun x => sha224 x + ((k : Int) - 1) * sha256 x)

/-! ### Basic lemmas about the embedded `BitArray` operations -/

/-- The mask `1 <<< j` is the power `2 ^ j`. -/
theorem one_shiftLeft_eq_pow (j : Nat) : (1 : Nat) <<< j = 2 ^ j := by
  rw [Nat.shiftLeft_eq, one_mul]

/-- The boolean the source computes with `bits & 1 << i > 0` is `testBit`. -/
theorem decide_pos_and_shift (n j : Nat) :
    decide (0 < n &&& (1 <<< j)) = n.testBit j := by
  rw [one_shiftLeft_eq_pow, Nat.and_two_pow]
  cases h : n.testBit j <;> simp [h, Nat.pos_pow_of_pos]

/-- In-range bounds check succeeds. -/
theorem BitArray.val_ok (b : BitArray) (i : Int) (h0 : 0 ≤ i)
    (h1 : i < b.size) : b.val i = .ok () := by
  simp [BitArray.val, h0, h1]

/-- In-range `get` returns the addressed bit of the backing integer. -/
theorem BitArray.get_ok_eq (b : BitArray) (i : Int) (h0 : 0 ≤ i)
    (h1 : i < b.size) : b.get i = .ok (b.bits.testBit i.toNat) := by
  rw [BitArray.get, BitArray.val_ok b i h0 h1]
  show Except.ok _ = _
  rw [decide_pos_and_shift]

/-- In-range `set` ORs the corresponding power of two into the backing
integer. -/
theorem BitArray.set_ok_eq (b : BitArray) (i : Int) (h0 : 0 ≤ i)
    (h1 : i < b.size) :
    b.set i = .ok ⟨b.bits ||| (1 <<< i.toNat), b.size⟩ := by
  rw [BitArray.set, BitArray.val_ok b i h0 h1]
  rfl

/-- In-range `unset` XORs the corresponding power of two into the backing
integer. -/
theorem BitArray.unset_ok_eq (b : BitArray) (i : Int) (h0 : 0 ≤ i)
    (h1 : i < b.size) :
    b.unset i = .ok ⟨b.bits ^^^ (1 <<< i.toNat), b.size⟩ := by
  rw [BitArray.unset, BitArray.val_ok b i h0 h1]
  rfl

/-- Out-of-range bounds check fails with the message naming index and size. -/
theorem BitArray.val_error (b : BitArray) (i : Int)
    (h : ¬(0 ≤ i ∧ i < b.size)) :
    b.val i = .error ("Index " ++ toString i ++
      " must be between 0 and bit array size " ++ toString b.size) := by
  simp [BitArray.val, h]

/-! ### Lemmas about the embedded filter operations -/

/-- The bit-setting loop of `add` succeeds on a non-empty bit array,
preserves the size, and yields exactly the old bits plus the addressed
bits. -/
theorem foldl_set_spec (x : α) (hfs : List (α → Int)) :
    ∀ ba : BitArray, 1 ≤ ba.size →
    ∃ ba' : BitArray,
      List.foldlM (fun ba hf => BitArray.set ba (hf x % ba.size)) ba hfs
        = .ok ba' ∧
      ba'.size = ba.size ∧
      (∀ j : Nat, ba'.bits.testBit j = true ↔
        (ba.bits.testBit j = true ∨
         ∃ hf ∈ hfs, (hf x % ba.size).toNat = j)) := by
  induction hfs with
  | nil =>
    intro ba _
    exact ⟨ba, rfl, rfl, by simp⟩
  | cons hf hfs ih =>
    intro ba hm
    have hz : ba.size ≠ 0 := by omega
    have h0 : 0 ≤ hf x % ba.size := Int.emod_nonneg _ hz
    have h1 : hf x % ba.size < ba.size := Int.emod_lt_of_pos _ (by omega)
    obtain ⟨ba', heq, hsz, hbits⟩ :=
      ih ⟨ba.bits ||| (1 <<< (hf x % ba.size).toNat), ba.size⟩ hm
    refine ⟨ba', ?_, hsz, ?_⟩
    · rw [List.foldlM_cons, BitArray.set_ok_eq ba _ h0 h1]
      exact heq
    · intro j
      rw [hbits j]
      simp only [Nat.testBit_or, one_shiftLeft_eq_pow, Nat.testBit_two_pow,
        Bool.or_eq_true, decide_eq_true_eq, List.mem_cons]
      constructor
      · rintro ((h | h) | ⟨g, hg, hgt⟩)
        · exact Or.inl h
        · exact Or.inr ⟨hf, Or.inl rfl, h⟩
        · exact Or.inr ⟨g, Or.inr hg, hgt⟩
      · rintro (h | ⟨g, (rfl | hg), hgt⟩)
        · exact Or.inl (Or.inl h)
        · exact Or.inl (Or.inr hgt)
        · exact Or.inr ⟨g, hg, hgt⟩

/-- `add` on a filter with a non-empty bit array: succeeds, preserves the
hash functions and the size, bumps the counter by one, and the new bits are
exactly the old bits plus the `k` addressed bits. -/
theorem BloomFilter.add_spec (F : BloomFilter α) (x : α) (hm : 1 ≤ F.m) :
    ∃ F' : BloomFilter α, F.add x = .ok F' ∧
      F'.bit_array.size = F.bit_array.size ∧
      F'.hash_funcs = F.hash_funcs ∧
      F'.num_added = F.num_added + 1 ∧
      (∀ j : Nat, F'.bit_array.bits.testBit j = true ↔
        (F.bit_array.bits.testBit j = true ∨
         ∃ hf ∈ F.hash_funcs, (hf x % F.m).toNat = j)) := by
  obtain ⟨ba', heq, hsz, hbits⟩ := foldl_set_spec x F.hash_funcs F.bit_array hm
  refine ⟨{ F with bit_array := ba', num_added := F.num_added + 1 },
    ?_, hsz, rfl, rfl, hbits⟩
  rw [BloomFilter.add, heq]
  rfl

/-- The membership loop returns `true` when every addressed bit is set. -/
theorem containsAux_ok_true (ba : BitArray) (x : α) (hm : 1 ≤ ba.size) :
    ∀ hfs : List (α → Int),
    (∀ hf ∈ hfs, ba.bits.testBit ((hf x % ba.size).toNat) = true) →
    BloomFilter.containsAux ba x hfs = .ok true := by
  intro hfs
  induction hfs with
  | nil => intro _; rfl
  | cons hf hfs ih =>
    intro h
    have h0 : 0 ≤ hf x % ba.size := Int.emod_nonneg _ (by omega)
    have h1 : hf x % ba.size < ba.size := Int.emod_lt_of_pos _ (by omega)
    rw [BloomFilter.containsAux, BitArray.get_ok_eq ba _ h0 h1,
      h hf (by simp)]
    exact ih (fun g hg => h g (by simp [hg]))

/-- The membership loop returns `false` as soon as the first addressed bit
is clear. -/
theorem containsAux_head_false (ba : BitArray) (x : α) (hf : α → Int)
    (hfs : List (α → Int)) (hm : 1 ≤ ba.size)
    (hbit : ba.bits.testBit ((hf x % ba.size).toNat) = false) :
    BloomFilter.containsAux ba x (hf :: hfs) = .ok false := by
  have h0 : 0 ≤ hf x % ba.size := Int.emod_nonneg _ (by omega)
  have h1 : hf x % ba.size < ba.size := Int.emod_lt_of_pos _ (by omega)
  rw [BloomFilter.containsAux, BitArray.get_ok_eq ba _ h0 h1, hbit]
  rfl

/-- `add_all` on a filter with a non-empty bit array: succeeds, preserves
hash functions and size, and never clears a bit. -/
theorem BloomFilter.addAll_spec (ys : List α) :
    ∀ F : BloomFilter α, 1 ≤ F.m →
    ∃ F' : BloomFilter α, F.addAll ys = .ok F' ∧
      F'.bit_array.size = F.bit_array.size ∧
      F'.hash_funcs = F.hash_funcs ∧
      (∀ j : Nat, F.bit_array.bits.testBit j = true →
        F'.bit_array.bits.testBit j = true) := by
  induction ys with
  | nil => intro F _; exact ⟨F, rfl, rfl, rfl, fun _ h => h⟩
  | cons y ys ih =>
    intro F hm
    obtain ⟨F₁, heq1, hsz1, hhf1, _, hbits1⟩ := F.add_spec y hm
    obtain ⟨F₂, heq2, hsz2, hhf2, hmono⟩ := ih F₁ (by
      show 1 ≤ F₁.bit_array.size
      rw [hsz1]; exact hm)
    refine ⟨F₂, ?_, by rw [hsz2, hsz1], by rw [hhf2, hhf1], ?_⟩
    · rw [BloomFilter.addAll, List.foldlM_cons, heq1]
      exact heq2
    · intro j hj
      exact hmono j ((hbits1 j).mpr (Or.inl hj))

/-! ### Claim theorems -/

/-- Concrete filter instance used by the witnesses: `m = 5`, `k = 2`, the
test-only modulo strategy, freshly constructed. -/
def demoFilter : BloomFilter Int :=
  { bit_array := { bits := 1 <<< 5, size := 5 }
    hash_funcs := modulo_get_hash_funcs 5 2
    num_added := 0 }

/-- C3: for every filter (any strategy, any state) with `m ≥ 1` and `k ≥ 1`
and every item `x`, `add x` succeeds and `contains x` is true immediately
after, and remains true after adding any further list of items: bits are
only set, never cleared. -/
theorem bloom_no_false_negatives (F : BloomFilter α) (x : α) (ys : List α)
    (hm : 1 ≤ F.m) (hk : 1 ≤ F.k) :
    ∃ F₁ : BloomFilter α, F.add x = .ok F₁ ∧ F₁.contains x = .ok true ∧
      ∃ F₂ : BloomFilter α, F₁.addAll ys = .ok F₂ ∧
        F₂.contains x = .ok true := by
  obtain ⟨F₁, heq1, hsz1, hhf1, _, hbits1⟩ := F.add_spec x hm
  have hm1 : 1 ≤ F₁.bit_array.size := by rw [hsz1]; exact hm
  have htargets : ∀ hf ∈ F.hash_funcs,
      F₁.bit_array.bits.testBit ((hf x % F.m).toNat) = true :=
    fun hf hhf => (hbits1 _).mpr (Or.inr ⟨hf, hhf, rfl⟩)
  have hc1 : F₁.contains x = .ok true := by
    rw [BloomFilter.contains, hhf1]
    refine containsAux_ok_true F₁.bit_array x hm1 F.hash_funcs
      (fun hf hhf => ?_)
    have hs : F₁.bit_array.size = F.m := hsz1
    rw [hs]
    exact htargets hf hhf
  obtain ⟨F₂, heq2, hsz2, hhf2, hmono⟩ := BloomFilter.addAll_spec ys F₁ hm1
  refine ⟨F₁, heq1, hc1, F₂, heq2, ?_⟩
  rw [BloomFilter.contains, hhf2, hhf1]
  refine containsAux_ok_true F₂.bit_array x (by rw [hsz2]; exact hm1)
    F.hash_funcs (fun hf hhf => ?_)
  have hs : F₂.bit_array.size = F.m := by rw [hsz2]; exact hsz1
  rw [hs]
  exact hmono _ (htargets hf hhf)

/-- Witness for C3 at a concrete filter, item and follow-up items. -/
theorem bloom_no_false_negatives_witness :
    1 ≤ demoFilter.m ∧ 1 ≤ demoFilter.k ∧
    ∃ F₁ : BloomFilter Int, demoFilter.add 7 = .ok F₁ ∧
      F₁.contains 7 = .ok true ∧
      ∃ F₂ : BloomFilter Int, F₁.addAll [1, 2] = .ok F₂ ∧
        F₂.contains 7 = .ok true :=
  ⟨by decide, by decide,
    bloom_no_false_negatives demoFilter 7 [1, 2] (by decide) (by decide)⟩

/-- C8: a single `add x` on a filter with `m ≥ 1` succeeds and (i) sets bit
`hash(x) mod m` for every hash function, (ii) increments the counter `n` by
exactly one, (iii) leaves `m` and `k` unchanged, and (iv) leaves every
in-range bit not addressed by one of the `k` computed indices with its
previous value. -/
theorem add_frame_effect (F : BloomFilter α) (x : α) (hm : 1 ≤ F.m) :
    ∃ F' : BloomFilter α, F.add x = .ok F' ∧
      F'.m = F.m ∧ F'.k = F.k ∧ F'.n = F.n + 1 ∧
      (∀ hf ∈ F.hash_funcs, F'.bit_array.get (hf x % F.m) = .ok true) ∧
      (∀ i : Int, 0 ≤ i → i < F.m →
        (∀ hf ∈ F.hash_funcs, hf x % F.m ≠ i) →
        F'.bit_array.get i = F.bit_array.get i) := by
  obtain ⟨F', heq, hsz, hhf, hn, hbits⟩ := F.add_spec x hm
  have hmz : F.m ≠ 0 := by omega
  refine ⟨F', heq, hsz, ?_, hn, ?_, ?_⟩
  · show F'.hash_funcs.length = F.hash_funcs.length
    rw [hhf]
  · intro hf hhf
    have h0 : 0 ≤ hf x % F.m := Int.emod_nonneg _ hmz
    have h1 : hf x % F.m < F'.bit_array.size := by
      rw [hsz]; exact Int.emod_lt_of_pos _ (by omega)
    rw [BitArray.get_ok_eq _ _ h0 h1,
      (hbits _).mpr (Or.inr ⟨hf, hhf, rfl⟩)]
  · intro i h0 h1 hne
    have h1' : i < F'.bit_array.size := by rw [hsz]; exact h1
    rw [BitArray.get_ok_eq _ _ h0 h1', BitArray.get_ok_eq _ _ h0 h1]
    have hiff : F'.bit_array.bits.testBit i.toNat = true ↔
        F.bit_array.bits.testBit i.toNat = true := by
      rw [hbits i.toNat]
      constructor
      · rintro (h | ⟨g, hg, hgt⟩)
        · exact h
        · exfalso
          apply hne g hg
          have hg0 : 0 ≤ g x % F.m := Int.emod_nonneg _ hmz
          omega
      · exact Or.inl
    cases hb : F.bit_array.bits.testBit i.toNat with
    | true => rw [hiff.mpr hb]
    | false =>
      cases hb' : F'.bit_array.bits.testBit i.toNat with
      | true => rw [hb] at hiff; exact absurd (hiff.mp hb') (by simp)
      | false => rfl

/-- Witness for C8 at a concrete filter and item. -/
theorem add_frame_effect_witness :
    1 ≤ demoFilter.m ∧
    ∃ F' : BloomFilter Int, demoFilter.add 7 = .ok F' ∧
      F'.m = demoFilter.m ∧ F'.k = demoFilter.k ∧
      F'.n = demoFilter.n + 1 ∧
      (∀ hf ∈ demoFilter.hash_funcs,
        F'.bit_array.get (hf 7 % demoFilter.m) = .ok true) ∧
      (∀ i : Int, 0 ≤ i → i < demoFilter.m →
        (∀ hf ∈ demoFilter.hash_funcs, hf 7 % demoFilter.m ≠ i) →
        F'.bit_array.get i = demoFilter.bit_array.get i) :=
  ⟨by decide, add_frame_effect demoFilter 7 (by decide)⟩

/-- C9: on any in-range index, `set i` twice leaves the `BitArray` in
exactly the state that one `set i` produces, and `get i` is true
afterwards. -/
theorem set_idempotent (b : BitArray) (i : Int) (h0 : 0 ≤ i)
    (h1 : i < b.size) :
    ∃ b' : BitArray, b.set i = .ok b' ∧ b'.set i = .ok b' ∧
      b'.get i = .ok true := by
  refine ⟨⟨b.bits ||| (1 <<< i.toNat), b.size⟩,
    BitArray.set_ok_eq b i h0 h1, ?_, ?_⟩
  · rw [BitArray.set_ok_eq ⟨b.bits ||| (1 <<< i.toNat), b.size⟩ i h0 h1,
      Nat.or_assoc, Nat.or_self]
  · rw [BitArray.get_ok_eq ⟨b.bits ||| (1 <<< i.toNat), b.size⟩ i h0 h1]
    have : (b.bits ||| (1 <<< i.toNat)).testBit i.toNat = true := by
      rw [Nat.testBit_or, one_shiftLeft_eq_pow, Nat.testBit_two_pow_self,
        Bool.or_true]
    rw [this]

/-- Witness for C9 on a fresh 10-bit array at index 2. -/
theorem set_idempotent_witness :
    0 ≤ (2 : Int) ∧ (2 : Int) < BitArray.size ⟨1 <<< 10, 10⟩ ∧
    ∃ b' : BitArray, BitArray.set ⟨1 <<< 10, 10⟩ 2 = .ok b' ∧
      b'.set 2 = .ok b' ∧ b'.get 2 = .ok true :=
  ⟨by decide, by decide, set_idempotent ⟨1 <<< 10, 10⟩ 2 (by decide) (by decide)⟩

/-- C5 (divergence demo): the source's `unset` XORs, so it toggles rather
than clears. On a fresh one-bit array, whose only bit is clear, `unset 0`
leaves `get 0` true, where the claim requires false. -/
theorem unset_sets_a_clear_bit :
    (do
      let b ← BitArray.init 1
      let b ← b.unset 0
      b.get 0) = Except.ok true := by
  rfl

/-- C6 (counterexample): constructing a `BitArray` of size `0` succeeds
(`_bits = 1`), where the claim requires an InvalidArgument failure for every
`size ≤ 0`. -/
theorem bitArray_init_zero_succeeds : BitArray.init 0 = .ok ⟨1, 0⟩ := by
  rfl

/-- C6 (amended): construction fails — with Python's own shift error, not an
explicit validation — exactly for `size < 0`, and succeeds for every
`size ≥ 0`, including `0`. -/
theorem bitArray_init_validation (size : Int) :
    (size < 0 → BitArray.init size = .error "negative shift count") ∧
    (0 ≤ size → BitArray.init size = .ok ⟨1 <<< size.toNat, size⟩) := by
  constructor
  · intro h
    simp [BitArray.init, h]
  · intro h
    simp [BitArray.init, Int.not_lt.mpr h]

/-- Witness for the amended C6 at sizes `-2` and `4`. -/
theorem bitArray_init_validation_witness :
    BitArray.init (-2) = .error "negative shift count" ∧
    BitArray.init 4 = .ok ⟨1 <<< (4 : Int).toNat, 4⟩ :=
  ⟨(bitArray_init_validation (-2)).1 (by decide),
   (bitArray_init_validation 4).2 (by decide)⟩

/-- C7: `get`, `set` and `unset` fail exactly when the index is out of
range (`i < 0` or `i ≥ size`), with an error message naming the offending
index and the size, and succeed on every in-range index. -/
theorem bitArray_index_bounds (b : BitArray) (i : Int) :
    (¬(0 ≤ i ∧ i < b.size) →
      b.get i = .error ("Index " ++ toString i ++
        " must be between 0 and bit array size " ++ toString b.size) ∧
      b.set i = .error ("Index " ++ toString i ++
        " must be between 0 and bit array size " ++ toString b.size) ∧
      b.unset i = .error ("Index " ++ toString i ++
        " must be between 0 and bit array size " ++ toString b.size)) ∧
    ((0 ≤ i ∧ i < b.size) →
      (∃ r, b.get i = .ok r) ∧ (∃ b', b.set i = .ok b') ∧
      (∃ b', b.unset i = .ok b')) := by
  constructor
  · intro h
    refine ⟨?_, ?_, ?_⟩
    · rw [BitArray.get, BitArray.val_error b i h]; rfl
    · rw [BitArray.set, BitArray.val_error b i h]; rfl
    · rw [BitArray.unset, BitArray.val_error b i h]; rfl
  · rintro ⟨h0, h1⟩
    exact ⟨⟨_, BitArray.get_ok_eq b i h0 h1⟩,
      ⟨_, BitArray.set_ok_eq b i h0 h1⟩,
      ⟨_, BitArray.unset_ok_eq b i h0 h1⟩⟩

/-- Witness for C7: out-of-range index 5 on a one-bit array fails with the
message naming 5 and the size 1; index 0 succeeds for all three
operations. -/
theorem bitArray_index_bounds_witness :
    (BitArray.get ⟨2, 1⟩ 5 = .error ("Index " ++ toString (5 : Int) ++
        " must be between 0 and bit array size " ++ toString (1 : Int)) ∧
      BitArray.set ⟨2, 1⟩ 5 = .error ("Index " ++ toString (5 : Int) ++
        " must be between 0 and bit array size " ++ toString (1 : Int)) ∧
      BitArray.unset ⟨2, 1⟩ 5 = .error ("Index " ++ toString (5 : Int) ++
        " must be between 0 and bit array size " ++ toString (1 : Int))) ∧
    ((∃ r, BitArray.get ⟨2, 1⟩ 0 = .ok r) ∧
      (∃ b', BitArray.set ⟨2, 1⟩ 0 = .ok b') ∧
      (∃ b', BitArray.unset ⟨2, 1⟩ 0 = .ok b')) :=
  ⟨(bitArray_index_bounds ⟨2, 1⟩ 5).1 (by decide),
   (bitArray_index_bounds ⟨2, 1⟩ 0).2 (by decide)⟩

/-- C10: a freshly constructed `BitArray` of size `s ≥ 1` has backing
integer `1 <<< s` — one sentinel bit at the out-of-range position `s` — so
every in-range bit reads clear, and a freshly constructed filter with
`k ≥ 1` hash functions answers `contains x = false` for every item before
any `add`. -/
theorem fresh_filter_all_clear (getHashFuncs : Nat → List (α → Int))
    (s : Int) (k : Nat) (hs : 1 ≤ s) (hk : 1 ≤ k)
    (hlen : (getHashFuncs k).length = k) :
    ∃ b : BitArray, BitArray.init s = .ok b ∧ b.bits = 1 <<< s.toNat ∧
      (∀ i : Int, 0 ≤ i → i < s → b.get i = .ok false) ∧
      ∃ F : BloomFilter α, BloomFilter.init getHashFuncs s k = .ok F ∧
        F.bit_array = b ∧ ∀ x : α, F.contains x = .ok false := by
  have hinit : BitArray.init s = .ok ⟨1 <<< s.toNat, s⟩ := by
    simp [BitArray.init, Int.not_lt.mpr (by omega : (0 : Int) ≤ s)]
  have hclear : ∀ i : Int, 0 ≤ i → i < s →
      Nat.testBit (1 <<< s.toNat) i.toNat = false := by
    intro i h0 h1
    rw [one_shiftLeft_eq_pow]
    exact Nat.testBit_two_pow_of_ne (by omega)
  have hget : ∀ i : Int, 0 ≤ i → i < s →
      BitArray.get ⟨1 <<< s.toNat, s⟩ i = .ok false := by
    intro i h0 h1
    rw [BitArray.get_ok_eq ⟨1 <<< s.toNat, s⟩ i h0 h1, hclear i h0 h1]
  refine ⟨⟨1 <<< s.toNat, s⟩, hinit, rfl, hget,
    ⟨⟨1 <<< s.toNat, s⟩, getHashFuncs k, 0⟩, ?_, rfl, ?_⟩
  · rw [BloomFilter.init, hinit]
    show (if (getHashFuncs k).length = k then _ else _ :
      Except String (BloomFilter α)) = _
    rw [if_pos hlen]
    rfl
  · intro x
    obtain ⟨hf, rest, hcons⟩ : ∃ hf rest, getHashFuncs k = hf :: rest := by
      cases hfs : getHashFuncs k with
      | nil => rw [hfs] at hlen; simp at hlen; omega
      | cons hf rest => exact ⟨hf, rest, rfl⟩
    rw [BloomFilter.contains]
    show BloomFilter.containsAux ⟨1 <<< s.toNat, s⟩ x (getHashFuncs k)
      = .ok false
    rw [hcons]
    refine containsAux_head_false ⟨1 <<< s.toNat, s⟩ x hf rest hs ?_
    have h0 : 0 ≤ hf x % s := Int.emod_nonneg _ (by omega)
    have h1 : hf x % s < s := Int.emod_lt_of_pos _ (by omega)
    exact hclear _ h0 h1

/-- Witness for C10: the modulo strategy at `m = 4`, `k = 2`. -/
theorem fresh_filter_all_clear_witness :
    1 ≤ (4 : Int) ∧ 1 ≤ 2 ∧ (modulo_get_hash_funcs 4 2).length = 2 ∧
    ∃ b : BitArray, BitArray.init 4 = .ok b ∧ b.bits = 1 <<< (4 : Int).toNat ∧
      (∀ i : Int, 0 ≤ i → i < 4 → b.get i = .ok false) ∧
      ∃ F : BloomFilter Int,
        BloomFilter.init (modulo_get_hash_funcs 4) 4 2 = .ok F ∧
        F.bit_array = b ∧ ∀ x : Int, F.contains x = .ok false :=
  ⟨by decide, by decide, by decide,
    fresh_filter_all_clear (modulo_get_hash_funcs 4) 4 2 (by decide)
      (by decide) (by decide)⟩

/-- Concrete stand-in digest used to exhibit the behaviour of the embedded
hash-function constructors at explicit inputs: the base-256 value of the
string's characters. -/
def demo_digest (s : String) : Int :=
  ((s.data.map Char.toNat).foldl (fun a c => 256 * a + c) 0 : Nat)

/-- Stand-in for the 224-bit digest family in the C2 demonstration. -/
def demo_sha224 (s : String) : Int :=
  demo_digest s

/-- Stand-in for the 256-bit digest family in the C2 demonstration. -/
def demo_sha256 (s : String) : Int :=
  demo_digest s + 1

/-- C1 (divergence demo): in `SaltedSHA256BloomFilter._get_hash_funcs`, the
list-comprehension lambdas all capture the final loop value of `i`, so for
`k = 2` the 0-th returned function salts with `1`, not with its own index
`0`: applied to `"a"` it digests `"a-1"`, which differs from the digest of
`"a-0"` that the claim requires. -/
theorem salted_hash_funcs_all_use_final_salt :
    ((salted_sha256_get_hash_funcs demo_digest 2).getD 0 (fun _ => 0)) "a"
        = demo_digest ("a" ++ "-" ++ toString (1 : Nat)) ∧
    ((salted_sha256_get_hash_funcs demo_digest 2).getD 0 (fun _ => 0)) "a"
        ≠ demo_digest ("a" ++ "-" ++ toString (0 : Nat)) := by
  constructor
  · rfl
  · decide

/-- C2 (divergence demo): in `ComposedSHABloomFilter._get_hash_funcs`, the
list-comprehension lambdas all capture the final loop value of `i`, so for
`k = 2` the 0-th returned function uses coefficient `1`, not its own index
`0`: it computes `sha224(x) + 1 * sha256(x)`, which differs from the
`sha224(x) + 0 * sha256(x)` that the claim requires. -/
theorem composed_hash_funcs_all_use_final_coefficient :
    ((composed_sha_get_hash_funcs demo_sha224 demo_sha256 2).getD 0
        (fun _ => 0)) "a"
      = demo_sha224 "a" + ((2 : Int) - 1) * demo_sha256 "a" ∧
    ((composed_sha_get_hash_funcs demo_sha224 demo_sha256 2).getD 0
        (fun _ => 0)) "a"
      ≠ demo_sha224 "a" + (0 : Int) * demo_sha256 "a" := by
  constructor
  · rfl
  · decide
